import Mathlib

/-!
# Verification of `str_analysis/check_trios_for_mendelian_violations.py`

A shallow embedding of the Mendelian-violation classifier, the transmission
assigner, the interval primitives and the trio-grouping step of
`check_trios_for_mendelian_violations.py`, together with theorems checking the
specification's claims against it.

Modelling conventions:
* Python allele strings stay `String`; Python's `int(...)` parse is `pyInt`
  below, and a failed parse (a `ValueError` in Python) is modelled by
  propagating `Option.none`.
* Python's `min` over a possibly-empty list is `List.min?` (`none` models the
  `ValueError` raised by `min([])`).
* A Python list comprehension that may raise inside an expression is `mapOpt`
  (left-to-right evaluation, first failure aborts).
* Functions that can raise return `Option`; `none` is any raised exception.
-/

namespace CheckTrios

/-- Accumulate decimal digits; any non-digit character aborts the parse. -/
def digitsToNatAux (acc : Nat) : List Char → Option Nat
  | [] => some acc
  | c :: cs => if c.isDigit then digitsToNatAux (10 * acc + (c.toNat - '0'.toNat)) cs else none

/-- A non-empty all-digit character list parsed as a decimal `Nat`. -/
def digitsToNat : List Char → Option Nat
  | [] => none
  | l => digitsToNatAux 0 l

/-- Python's `int(s)` on the genotype strings this program handles: an optional
leading minus sign followed by one or more decimal digits (so `"017"` parses to
`17`); anything else raises `ValueError`, modelled as `none`. -/
def pyInt (s : String) : Option Int :=
  match s.data with
  | '-' :: rest => (digitsToNat rest).map (fun n => -(n : Int))
  | l => (digitsToNat l).map (fun n => (n : Int))

/-- Left-to-right traversal of a list with a fallible function: the model of a
Python list comprehension whose body may raise. -/
def mapOpt (f : α → Option β) : List α → Option (List β)
  | [] => some []
  | a :: as => do
    let b ← f a
    let bs ← mapOpt f as
    pure (b :: bs)

/-- Model of `compute_min_distance_mendelian(proband_allele, parent_alleles)`:
`min([abs(int(proband_allele) - int(pa)) for pa in parent_alleles])`. -/
def compute_min_distance_mendelian (proband_allele : String) (parent_alleles : List String) :
    Option Int := do
  let ds ← mapOpt (fun pa => do
    let p ← pyInt proband_allele
    let v ← pyInt pa
    pure |p - v|) parent_alleles
  ds.min?

/-- Model of `is_mendelian_violation(proband_alleles, father_alleles, mother_alleles, is_chrX_locus)`.
Membership tests (`in`) compare the raw allele strings; distances are computed on
the `int(...)`-parsed values. The `ValueError` raised on an allele count outside
{1,2} is `none`. -/
def is_mendelian_violation (proband_alleles father_alleles mother_alleles : List String)
    (is_chrX_locus : Bool) : Option (Bool × Int) :=
  match proband_alleles with
  | [p0] =>
    if is_chrX_locus then do
      let d ← compute_min_distance_mendelian p0 mother_alleles
      pure (mother_alleles.contains p0, d)
    else do
      let df ← compute_min_distance_mendelian p0 father_alleles
      let dm ← compute_min_distance_mendelian p0 mother_alleles
      pure (father_alleles.contains p0 || mother_alleles.contains p0, min df dm)
  | [p0, p1] => do
    let d0f ← compute_min_distance_mendelian p0 father_alleles
    let d1m ← compute_min_distance_mendelian p1 mother_alleles
    let d1f ← compute_min_distance_mendelian p1 father_alleles
    let d0m ← compute_min_distance_mendelian p0 mother_alleles
    pure ((father_alleles.contains p0 && mother_alleles.contains p1) ||
          (father_alleles.contains p1 && mother_alleles.contains p0),
          min (d0f + d1m) (d1f + d0m))
  | _ => none

/-- Model of `get_nearest_parental_allele(proband_allele, parent_alleles)`:
`min(parent_alleles, key=lambda x: abs(int(proband_allele) - int(x)))` followed by
`abs(int(proband_allele) - int(nearest))`. Python's keyed `min` keeps the first
element whose key is minimal, modelled by a fold that replaces the current best
only on a strictly smaller key. Returns `(nearest_allele_string, difference)`. -/
def get_nearest_parental_allele (proband_allele : String) (parent_alleles : List String) :
    Option (String × Int) := do
  let keyed ← mapOpt (fun x => do
    let p ← pyInt proband_allele
    let v ← pyInt x
    pure (x, |p - v|)) parent_alleles
  match keyed with
  | [] => none
  | k :: ks =>
    let nearest := ks.foldl (fun best y => if y.2 < best.2 then y else best) k
    pure (nearest.1, nearest.2)

/-- A Python value stored in one of the transmitted-allele variables in
`determine_transmitted_alleles`: either a bare allele string, or — in the
haploid-chrX branch, where the source omits the tuple unpacking — the whole
`(nearest_allele, difference)` pair returned by `get_nearest_parental_allele`. -/
inductive TransVal where
  | str : String → TransVal
  | pair : String → Int → TransVal
deriving DecidableEq, Repr

/-- The quadruple returned by `determine_transmitted_alleles`:
`(father_transmitted_allele, mother_transmitted_allele,
proband_num_repeats_from_father, proband_num_repeats_from_mother)`, each `none`
when the source leaves it as Python `None`. -/
abbrev TransResult := Option TransVal × Option TransVal × Option String × Option String

/-- Model of `determine_transmitted_alleles(proband_alleles, father_alleles, mother_alleles,
is_chrX_locus)`. The haploid-chrX branch assigns the whole pair returned by
`get_nearest_parental_allele` (the source has no `, _` unpacking there), and the
haploid non-chrX maternal branch assigns `nearest_paternal_allele` (as the source
does on its line `mother_transmitted_allele = nearest_paternal_allele`). -/
def determine_transmitted_alleles (proband_alleles father_alleles mother_alleles : List String)
    (is_chrX_locus : Bool) : Option TransResult :=
  match proband_alleles with
  | [p0] =>
    if is_chrX_locus then do
      let nearest_maternal_allele ← get_nearest_parental_allele p0 mother_alleles
      pure (none, some (TransVal.pair nearest_maternal_allele.1 nearest_maternal_allele.2),
            none, some p0)
    else do
      let np ← get_nearest_parental_allele p0 father_alleles
      let nm ← get_nearest_parental_allele p0 mother_alleles
      let vp ← pyInt np.1
      let vm ← pyInt nm.1
      let v0 ← pyInt p0
      if |vp - v0| < |vm - v0| then
        pure (some (TransVal.str np.1), none, some p0, none)
      else
        pure (none, some (TransVal.str np.1), none, some p0)
  | [p0, p1] => do
    let nf1 ← get_nearest_parental_allele p0 father_alleles
    let nm1 ← get_nearest_parental_allele p0 mother_alleles
    let nf2 ← get_nearest_parental_allele p1 father_alleles
    let nm2 ← get_nearest_parental_allele p1 mother_alleles
    if nm1.2 + nf2.2 < nf1.2 + nm2.2 then
      pure (some (TransVal.str nf2.1), some (TransVal.str nm1.1), some p1, some p0)
    else
      pure (some (TransVal.str nf1.1), some (TransVal.str nm2.1), some p0, some p1)
  | _ => none

/-- An ExpansionHunter genotype confidence interval: `lo` models the
`intervaltree` `Interval.begin` field and `hi` its `Interval.end` field. -/
structure Interval where
  lo : Int
  hi : Int
deriving DecidableEq, Repr

/-- Model of `intervals_overlap(i1, i2)`: `not (i1.end < i2.begin or i2.end < i1.begin)` —
the closed intervals overlap, with touching endpoints counting as overlap. -/
def intervals_overlap (i1 i2 : Interval) : Bool :=
  !(decide (i1.hi < i2.lo) || decide (i2.hi < i1.lo))

/-- Modelled from the spec: `Interval.distance_to` is supplied by the external
`intervaltree` package, whose code is not under src/. Per the spec's contract the
distance between two closed integer intervals is the minimum number of integer
positions separating them — `0` when they overlap, and otherwise the gap between
the facing endpoints. -/
def Interval.distance_to (i1 i2 : Interval) : Int :=
  if intervals_overlap i1 i2 then 0
  else if i1.hi < i2.lo then i2.lo - i1.hi
  else i1.lo - i2.hi

/-- The per-pair interval distance taken inside `compute_min_distance_mendelian_ci`:
`abs(proband_CI.distance_to(parent_CI))`. -/
def ciPairDistance (proband_CI parent_CI : Interval) : Int :=
  |proband_CI.distance_to parent_CI|

/-- Model of `compute_min_distance_mendelian_ci(proband_CI, parent_CIs)`:
`min([abs(proband_CI.distance_to(parent_CI)) for parent_CI in parent_CIs])`. -/
def compute_min_distance_mendelian_ci (proband_CI : Interval) (parent_CIs : List Interval) :
    Option Int :=
  (parent_CIs.map (fun parent_CI => ciPairDistance proband_CI parent_CI)).min?

/-- One row of the combined STR calls table, restricted to the fields
`group_rows_by_trio` reads. `none` models a missing (`None`/`NaN`) value. -/
structure CallRow where
  sampleId : String
  locusId : String
  variantId : String
  genotype : Option String
  father_id : Option String
  mother_id : Option String
deriving DecidableEq, Repr

/-- The `all_rows` genotype cache of `group_rows_by_trio`: the dict maps
`(sample_id, LocusId, VariantId)` to the row, rows with a `None` genotype are
skipped, and a later row overwrites an earlier one with the same key (dict
assignment), so lookup returns the last matching row. -/
def all_rows_get (rows : List CallRow) (k : String × String × String) : Option CallRow :=
  (rows.filter (fun r => r.genotype.isSome &&
    decide ((r.sampleId, r.locusId, r.variantId) = k))).getLast?

/-- One iteration of the second loop of `group_rows_by_trio`: look up the father
and mother rows of `row`; if either is missing append `row` to the other-rows
list, otherwise append the `(row, father_row, mother_row)` triple to the
trio-rows list. -/
def groupRowsStep (rows : List CallRow) (acc : List (CallRow × CallRow × CallRow) × List CallRow)
    (row : CallRow) : List (CallRow × CallRow × CallRow) × List CallRow :=
  match all_rows_get rows (row.father_id.getD "", row.locusId, row.variantId),
        all_rows_get rows (row.mother_id.getD "", row.locusId, row.variantId) with
  | some father_row, some mother_row => (acc.1 ++ [(row, father_row, mother_row)], acc.2)
  | _, _ => (acc.1, acc.2 ++ [row])

/-- Model of `group_rows_by_trio(combined_str_calls_df)`: cache all genotyped rows by key,
drop the rows whose `father_id` or `mother_id` is missing, and partition the
remaining rows into proband/father/mother triples and unpaired other rows. -/
def group_rows_by_trio (rows : List CallRow) :
    List (CallRow × CallRow × CallRow) × List CallRow :=
  (rows.filter (fun r => r.father_id.isSome && r.mother_id.isSome)).foldl
    (groupRowsStep rows) ([], [])

/-! ## Helper lemmas -/

/-- The integer value of an allele string whose parse succeeds. -/
def alleleVal (s : String) : Int := (pyInt s).getD 0

theorem pyInt_eq_some_alleleVal {s : String} (h : (pyInt s).isSome) :
    pyInt s = some (alleleVal s) := by
  unfold alleleVal
  cases hp : pyInt s with
  | none => rw [hp] at h; cases h
  | some v => simp [hp]

theorem mapOpt_cons_eq_some {f : α → Option β} {x : α} {xs : List α} {l' : List β} :
    mapOpt f (x :: xs) = some l' ↔
      ∃ b bs, f x = some b ∧ mapOpt f xs = some bs ∧ l' = b :: bs := by
  simp only [mapOpt, Option.bind_eq_bind, Option.bind_eq_some, Option.pure_def,
    Option.some.injEq]
  constructor
  · rintro ⟨b, hb, bs, hbs, h⟩
    exact ⟨b, bs, hb, hbs, h.symm⟩
  · rintro ⟨b, bs, hb, hbs, h⟩
    exact ⟨b, hb, bs, hbs, h.symm⟩

theorem mapOpt_mem_left {f : α → Option β} :
    ∀ {l : List α} {l' : List β}, mapOpt f l = some l' → ∀ a ∈ l, ∃ b ∈ l', f a = some b := by
  intro l
  induction l with
  | nil => intro l' h a ha; cases ha
  | cons x xs ih =>
    intro l' h a ha
    obtain ⟨b, bs, hb, hbs, rfl⟩ := mapOpt_cons_eq_some.mp h
    rcases List.mem_cons.mp ha with rfl | ha
    · exact ⟨b, List.mem_cons_self _ _, hb⟩
    · obtain ⟨c, hc, hfc⟩ := ih hbs a ha
      exact ⟨c, List.mem_cons_of_mem _ hc, hfc⟩

theorem mapOpt_mem_right {f : α → Option β} :
    ∀ {l : List α} {l' : List β}, mapOpt f l = some l' → ∀ b ∈ l', ∃ a ∈ l, f a = some b := by
  intro l
  induction l with
  | nil =>
    intro l' h b hb
    simp only [mapOpt, Option.some.injEq] at h
    subst h; cases hb
  | cons x xs ih =>
    intro l' h b hb
    obtain ⟨c, bs, hc, hbs, rfl⟩ := mapOpt_cons_eq_some.mp h
    rcases List.mem_cons.mp hb with rfl | hb
    · exact ⟨x, List.mem_cons_self _ _, hc⟩
    · obtain ⟨a, ha, hfa⟩ := ih hbs b hb
      exact ⟨a, List.mem_cons_of_mem _ ha, hfa⟩

theorem mapOpt_eq_map {f : α → Option β} {g : α → β} :
    ∀ {l : List α}, (∀ a ∈ l, f a = some (g a)) → mapOpt f l = some (l.map g) := by
  intro l
  induction l with
  | nil => intro _; rfl
  | cons x xs ih =>
    intro h
    rw [List.map_cons, mapOpt_cons_eq_some]
    exact ⟨g x, xs.map g, h x (List.mem_cons_self _ _),
      ih (fun a ha => h a (List.mem_cons_of_mem _ ha)), rfl⟩

theorem int_min?_eq_some_iff {xs : List Int} {a : Int} :
    xs.min? = some a ↔ a ∈ xs ∧ ∀ b ∈ xs, a ≤ b := by
  haveI anti : Std.Antisymm ((· : Int) ≤ ·) := ⟨fun h h2 => le_antisymm h h2⟩
  exact List.min?_eq_some_iff (fun _ => le_refl _) (fun p q => min_choice p q)
    (fun _ _ _ => le_min_iff)

theorem min?_isSome_of_ne_nil [Min α] {xs : List α} (h : xs ≠ []) : ∃ a, xs.min? = some a := by
  cases hm : xs.min? with
  | none => exact absurd (List.min?_eq_none_iff.mp hm) h
  | some a => exact ⟨a, rfl⟩

theorem contains_true_iff {l : List String} {a : String} : l.contains a = true ↔ a ∈ l := by
  simp [List.contains, List.elem_iff]

theorem compute_min_distance_mendelian_eq {p : String} {F : List String}
    (hp : (pyInt p).isSome) (hF : ∀ s ∈ F, (pyInt s).isSome) :
    compute_min_distance_mendelian p F = (F.map (fun q => |alleleVal p - alleleVal q|)).min? := by
  have hmap : mapOpt (fun pa => do
      let a ← pyInt p
      let v ← pyInt pa
      pure |a - v|) F = some (F.map (fun q => |alleleVal p - alleleVal q|)) := by
    refine mapOpt_eq_map (fun a ha => ?_)
    rw [pyInt_eq_some_alleleVal hp, pyInt_eq_some_alleleVal (hF a ha)]
    rfl
  unfold compute_min_distance_mendelian
  rw [hmap]
  simp

theorem compute_min_distance_mendelian_some {p : String} {F : List String} {d : Int}
    (h : compute_min_distance_mendelian p F = some d) :
    0 ≤ d ∧ (p ∈ F → d = 0) := by
  unfold compute_min_distance_mendelian at h
  rw [Option.bind_eq_bind, Option.bind_eq_some] at h
  obtain ⟨ds, hds, hmin⟩ := h
  rw [int_min?_eq_some_iff] at hmin
  obtain ⟨hdmem, hdle⟩ := hmin
  have hd0 : 0 ≤ d := by
    obtain ⟨a, _, hfa⟩ := mapOpt_mem_right hds d hdmem
    simp only [Option.bind_eq_bind, Option.bind_eq_some, Option.pure_def,
      Option.some.injEq] at hfa
    obtain ⟨vp, _, vv, _, rfl⟩ := hfa
    exact abs_nonneg _
  refine ⟨hd0, fun hmem => ?_⟩
  obtain ⟨b, hb, hfb⟩ := mapOpt_mem_left hds p hmem
  simp only [Option.bind_eq_bind, Option.bind_eq_some, Option.pure_def,
    Option.some.injEq] at hfb
  obtain ⟨vp, hvp, vv, hvv, rfl⟩ := hfb
  rw [hvp] at hvv
  injection hvv with hvv
  subst hvv
  have := hdle _ hb
  simp only [sub_self, abs_zero] at this
  exact le_antisymm this hd0

theorem foldl_minBy_snd (k : β × Int) (ks : List (β × Int)) :
    (ks.foldl (fun best y => if y.2 < best.2 then y else best) k).2 =
    (ks.map Prod.snd).foldl min k.2 := by
  induction ks generalizing k with
  | nil => rfl
  | cons y ys ih =>
    simp only [List.foldl_cons, List.map_cons]
    rw [ih]
    congr 1
    by_cases h : y.2 < k.2
    · rw [if_pos h, min_eq_right (le_of_lt h)]
    · rw [if_neg h, min_eq_left (le_of_not_lt h)]

theorem mapOpt_snd_of_fst {f : α → Option (β × Int)} {g : α → Option Int}
    (hfg : ∀ a, g a = (f a).map Prod.snd) :
    ∀ {l : List α} {ks : List (β × Int)},
      mapOpt f l = some ks → mapOpt g l = some (ks.map Prod.snd) := by
  intro l
  induction l with
  | nil =>
    intro ks h
    simp only [mapOpt, Option.some.injEq] at h
    subst h; rfl
  | cons x xs ih =>
    intro ks h
    obtain ⟨b, bs, hb, hbs, rfl⟩ := mapOpt_cons_eq_some.mp h
    rw [List.map_cons, mapOpt_cons_eq_some]
    exact ⟨b.2, bs.map Prod.snd, by rw [hfg x, hb]; rfl, ih hbs, rfl⟩

/-- The difference returned by `get_nearest_parental_allele` is exactly the value
computed by `compute_min_distance_mendelian` on the same arguments. -/
theorem get_nearest_parental_allele_snd {p : String} {F : List String} {ad : String × Int}
    (h : get_nearest_parental_allele p F = some ad) :
    compute_min_distance_mendelian p F = some ad.2 := by
  obtain ⟨a, d⟩ := ad
  unfold get_nearest_parental_allele at h
  rw [Option.bind_eq_bind, Option.bind_eq_some] at h
  obtain ⟨keyed, hkeyed, hrest⟩ := h
  cases keyed with
  | nil => simp at hrest
  | cons k ks =>
    simp only [Option.pure_def, Option.some.injEq, Prod.mk.injEq] at hrest
    obtain ⟨ha, hd⟩ := hrest
    have hmap2 : mapOpt (fun pa => do
        let a ← pyInt p
        let v ← pyInt pa
        pure |a - v|) F = some ((k :: ks).map Prod.snd) := by
      refine mapOpt_snd_of_fst (fun x => ?_) hkeyed
      cases hp : pyInt p <;> cases hv : pyInt x <;> simp [hp, hv]
    unfold compute_min_distance_mendelian
    rw [hmap2]
    simp only [Option.bind_eq_bind, Option.some_bind, List.map_cons, List.min?_cons',
      Option.some.injEq]
    rw [← foldl_minBy_snd k ks]
    exact hd

/-! ## Claim theorems -/

/-- C2: whenever `is_mendelian_violation` returns `ok = true`, the distance it
returns alongside is exactly `0`, so the assertion `distance_mendelian == 0`
guarded by `ok_mendelian` in `compute_mendelian_violations` never fails. -/
theorem ok_mendelian_implies_distance_zero
    (P F M : List String) (x : Bool) (d : Int)
    (h : is_mendelian_violation P F M x = some (true, d)) : d = 0 := by
  cases P with
  | nil => simp [is_mendelian_violation] at h
  | cons p0 rest =>
  cases rest with
  | cons p1 rest2 =>
    cases rest2 with
    | cons p2 rest3 => simp [is_mendelian_violation] at h
    | nil =>
      simp only [is_mendelian_violation, Option.bind_eq_bind, Option.bind_eq_some,
        Option.pure_def, Option.some.injEq, Prod.mk.injEq] at h
      obtain ⟨d0f, h0f, d1m, h1m, d1f, h1f, d0m, h0m, hok, hd⟩ := h
      rw [Bool.or_eq_true, Bool.and_eq_true, Bool.and_eq_true] at hok
      subst hd
      rcases hok with ⟨hc0, hc1⟩ | ⟨hc1, hc0⟩
      · have e0 := (compute_min_distance_mendelian_some h0f).2 (contains_true_iff.mp hc0)
        have e1 := (compute_min_distance_mendelian_some h1m).2 (contains_true_iff.mp hc1)
        have g1 := (compute_min_distance_mendelian_some h1f).1
        have g0 := (compute_min_distance_mendelian_some h0m).1
        rw [e0, e1]
        simp only [add_zero, zero_add]
        exact min_eq_left (by omega)
      · have e1 := (compute_min_distance_mendelian_some h1f).2 (contains_true_iff.mp hc1)
        have e0 := (compute_min_distance_mendelian_some h0m).2 (contains_true_iff.mp hc0)
        have g0 := (compute_min_distance_mendelian_some h0f).1
        have g1 := (compute_min_distance_mendelian_some h1m).1
        rw [e0, e1]
        simp only [add_zero, zero_add]
        exact min_eq_right (by omega)
  | nil =>
    cases x with
    | true =>
      simp only [is_mendelian_violation, if_true, Option.bind_eq_bind, Option.bind_eq_some,
        Option.pure_def, Option.some.injEq, Prod.mk.injEq] at h
      obtain ⟨dm, hdm, hok, hd⟩ := h
      subst hd
      exact (compute_min_distance_mendelian_some hdm).2 (contains_true_iff.mp hok)
    | false =>
      simp only [is_mendelian_violation, Option.bind_eq_bind] at h
      rw [if_neg (by decide)] at h
      rw [Option.bind_eq_some] at h
      obtain ⟨df, hdf, h⟩ := h
      rw [Option.bind_eq_some] at h
      obtain ⟨dm, hdm, h⟩ := h
      simp only [Option.pure_def, Option.some.injEq, Prod.mk.injEq] at h
      obtain ⟨hok, hd⟩ := h
      rw [Bool.or_eq_true] at hok
      subst hd
      rcases hok with hc | hc
      · have e := (compute_min_distance_mendelian_some hdf).2 (contains_true_iff.mp hc)
        have g := (compute_min_distance_mendelian_some hdm).1
        rw [e]
        exact min_eq_left (by omega)
      · have e := (compute_min_distance_mendelian_some hdm).2 (contains_true_iff.mp hc)
        have g := (compute_min_distance_mendelian_some hdf).1
        rw [e]
        exact min_eq_right (by omega)

/-- Witness for C2 at a concrete consistent trio. -/
theorem ok_mendelian_implies_distance_zero_witness :
    is_mendelian_violation ["17", "19"] ["17", "18"] ["19", "20"] false = some (true, 0) ∧
    (0 : Int) = 0 :=
  ⟨by decide, ok_mendelian_implies_distance_zero ["17", "19"] ["17", "18"] ["19", "20"] false 0
    (by decide)⟩

/-- C10: membership is tested on the raw strings while the distance is computed on
parsed values, so `"017"` (numerically `17`, textually different from `"17"`) yields
`ok = false` with distance `0`: distance `0` does not imply `ok = true`. -/
theorem distance_zero_does_not_imply_ok :
    is_mendelian_violation ["017", "21"] ["17"] ["21"] false = some (false, 0) ∧
    pyInt "017" = pyInt "17" ∧ "017" ≠ "17" := by decide

/-- C4 (code bug): in the haploid-chrX branch, `determine_transmitted_alleles`
stores the whole `(nearest allele, distance)` pair returned by
`get_nearest_parental_allele` into `mother_transmitted_allele` instead of the
nearest maternal allele value `"16"`, because the source line
`nearest_maternal_allele = get_nearest_parental_allele(...)` omits the tuple
unpacking used in every other branch. -/
theorem chrX_haploid_transmission_stores_pair :
    determine_transmitted_alleles ["17"] ["20", "21"] ["16", "19"] true =
      some (none, some (TransVal.pair "16" 1), none, some "17") ∧
    get_nearest_parental_allele "17" ["16", "19"] = some ("16", 1) := by decide

/-- C5 (code bug): in the haploid non-chrX branch, when the maternal candidate is
strictly closer (here |16-17| = 1 < |10-17| = 7) the source line
`mother_transmitted_allele = nearest_paternal_allele` stores the nearest paternal
allele `"10"` instead of the nearest maternal allele `"16"`. -/
theorem haploid_nonchrX_maternal_branch_output :
    determine_transmitted_alleles ["17"] ["10"] ["16"] false =
      some (none, some (TransVal.str "10"), none, some "17") ∧
    get_nearest_parental_allele "17" ["16"] = some ("16", 1) ∧
    get_nearest_parental_allele "17" ["10"] = some ("10", 7) := by decide

/-- C1 (amended): for a diploid proband with non-empty, integer-parseable parent
allele lists, `is_mendelian_violation` returns `ok = true` iff one of the two
pairings places each proband allele in the corresponding parent's allele list,
and the distance is the minimum over both pairings of the summed per-allele
minimum absolute differences; at the spec's concrete example the result is
`(false, 2)` — the per-allele minimum of `"17"` against father `["15","16"]` is
`1`, so the distance is `min(1+1, 3+3) = 2`, not the `3` the spec computes. -/
theorem diploid_violation_characterization
    (p0 p1 : String) (F M : List String) (x : Bool)
    (hF : F ≠ []) (hM : M ≠ [])
    (hparse : ∀ s ∈ p0 :: p1 :: (F ++ M), (pyInt s).isSome) :
    (∃ ok d, is_mendelian_violation [p0, p1] F M x = some (ok, d) ∧
      (ok = true ↔ ((p0 ∈ F ∧ p1 ∈ M) ∨ (p1 ∈ F ∧ p0 ∈ M))) ∧
      ∃ d0f d1m d1f d0m : Int,
        (F.map (fun q => |alleleVal p0 - alleleVal q|)).min? = some d0f ∧
        (M.map (fun q => |alleleVal p1 - alleleVal q|)).min? = some d1m ∧
        (F.map (fun q => |alleleVal p1 - alleleVal q|)).min? = some d1f ∧
        (M.map (fun q => |alleleVal p0 - alleleVal q|)).min? = some d0m ∧
        d = min (d0f + d1m) (d1f + d0m)) ∧
    is_mendelian_violation ["17", "19"] ["15", "16"] ["20", "21"] false = some (false, 2) := by
  have hp0 : (pyInt p0).isSome := hparse p0 (by simp)
  have hp1 : (pyInt p1).isSome := hparse p1 (by simp)
  have hFs : ∀ s ∈ F, (pyInt s).isSome := fun s hs => hparse s (by simp [hs])
  have hMs : ∀ s ∈ M, (pyInt s).isSome := fun s hs => hparse s (by simp [hs])
  have hFm : F.map (fun q => |alleleVal p0 - alleleVal q|) ≠ [] :=
    fun h => hF (List.map_eq_nil_iff.mp h)
  have hFm1 : F.map (fun q => |alleleVal p1 - alleleVal q|) ≠ [] :=
    fun h => hF (List.map_eq_nil_iff.mp h)
  have hMm0 : M.map (fun q => |alleleVal p0 - alleleVal q|) ≠ [] :=
    fun h => hM (List.map_eq_nil_iff.mp h)
  have hMm1 : M.map (fun q => |alleleVal p1 - alleleVal q|) ≠ [] :=
    fun h => hM (List.map_eq_nil_iff.mp h)
  obtain ⟨d0f, h0f⟩ := min?_isSome_of_ne_nil hFm
  obtain ⟨d1m, h1m⟩ := min?_isSome_of_ne_nil hMm1
  obtain ⟨d1f, h1f⟩ := min?_isSome_of_ne_nil hFm1
  obtain ⟨d0m, h0m⟩ := min?_isSome_of_ne_nil hMm0
  have c0f : compute_min_distance_mendelian p0 F = some d0f :=
    (compute_min_distance_mendelian_eq hp0 hFs).trans h0f
  have c1m : compute_min_distance_mendelian p1 M = some d1m :=
    (compute_min_distance_mendelian_eq hp1 hMs).trans h1m
  have c1f : compute_min_distance_mendelian p1 F = some d1f :=
    (compute_min_distance_mendelian_eq hp1 hFs).trans h1f
  have c0m : compute_min_distance_mendelian p0 M = some d0m :=
    (compute_min_distance_mendelian_eq hp0 hMs).trans h0m
  refine ⟨⟨(F.contains p0 && M.contains p1) || (F.contains p1 && M.contains p0),
    min (d0f + d1m) (d1f + d0m), ?_, ?_,
    d0f, d1m, d1f, d0m, h0f, h1m, h1f, h0m, rfl⟩, by decide⟩
  · simp only [is_mendelian_violation, c0f, c1m, c1f, c0m, Option.bind_eq_bind,
      Option.some_bind, Option.pure_def]
  · simp only [Bool.or_eq_true, Bool.and_eq_true, contains_true_iff]

/-- Witness for C1 at the spec's concrete diploid example. -/
theorem diploid_violation_characterization_witness :
    (∃ ok d, is_mendelian_violation ["17", "19"] ["15", "16"] ["20", "21"] false =
        some (ok, d) ∧
      (ok = true ↔ (("17" ∈ (["15", "16"] : List String) ∧ "19" ∈ (["20", "21"] : List String)) ∨
        ("19" ∈ (["15", "16"] : List String) ∧ "17" ∈ (["20", "21"] : List String)))) ∧
      ∃ d0f d1m d1f d0m : Int,
        ((["15", "16"] : List String).map (fun q => |alleleVal "17" - alleleVal q|)).min? =
          some d0f ∧
        ((["20", "21"] : List String).map (fun q => |alleleVal "19" - alleleVal q|)).min? =
          some d1m ∧
        ((["15", "16"] : List String).map (fun q => |alleleVal "19" - alleleVal q|)).min? =
          some d1f ∧
        ((["20", "21"] : List String).map (fun q => |alleleVal "17" - alleleVal q|)).min? =
          some d0m ∧
        d = min (d0f + d1m) (d1f + d0m)) ∧
    is_mendelian_violation ["17", "19"] ["15", "16"] ["20", "21"] false = some (false, 2) :=
  diploid_violation_characterization "17" "19" ["15", "16"] ["20", "21"] false
    (by decide) (by decide) (by decide)

/-- C1 counterexample: at the spec's concrete example the claimed result
`(false, 3)` is wrong — the code returns distance `2`. -/
theorem diploid_example_distance_is_two_not_three :
    ¬ (is_mendelian_violation ["17", "19"] ["15", "16"] ["20", "21"] false =
      some (false, 3)) := by decide

/-- C7: for a haploid proband at a chrX locus, `is_mendelian_violation` returns
`ok = true` iff the proband allele string equals some maternal allele, the
distance is the minimum absolute difference to a maternal allele, and the result
is identical for every father allele list; at the spec's concrete example the
result is `(true, 0)`. -/
theorem haploid_chrX_violation_characterization
    (p0 : String) (F F2 M : List String) (hM : M ≠ [])
    (hparse : ∀ s ∈ p0 :: M, (pyInt s).isSome) :
    (∃ ok d, is_mendelian_violation [p0] F M true = some (ok, d) ∧
      (ok = true ↔ p0 ∈ M) ∧
      (M.map (fun q => |alleleVal p0 - alleleVal q|)).min? = some d ∧
      is_mendelian_violation [p0] F2 M true = some (ok, d)) ∧
    is_mendelian_violation ["17"] ["20", "21"] ["17", "19"] true = some (true, 0) := by
  have hp0 : (pyInt p0).isSome := hparse p0 (by simp)
  have hMs : ∀ s ∈ M, (pyInt s).isSome := fun s hs => hparse s (by simp [hs])
  have hMm : M.map (fun q => |alleleVal p0 - alleleVal q|) ≠ [] :=
    fun h => hM (List.map_eq_nil_iff.mp h)
  obtain ⟨d, hd⟩ := min?_isSome_of_ne_nil hMm
  have hcs : compute_min_distance_mendelian p0 M = some d :=
    (compute_min_distance_mendelian_eq hp0 hMs).trans hd
  have hgen : ∀ G : List String,
      is_mendelian_violation [p0] G M true = some (M.contains p0, d) := by
    intro G
    simp only [is_mendelian_violation, if_true, hcs, Option.bind_eq_bind, Option.some_bind,
      Option.pure_def]
  exact ⟨⟨M.contains p0, d, hgen F, contains_true_iff, hd, hgen F2⟩, by decide⟩

/-- Witness for C7 at the spec's concrete haploid chrX example. -/
theorem haploid_chrX_violation_characterization_witness :
    (∃ ok d, is_mendelian_violation ["17"] ["20", "21"] ["17", "19"] true = some (ok, d) ∧
      (ok = true ↔ "17" ∈ (["17", "19"] : List String)) ∧
      ((["17", "19"] : List String).map (fun q => |alleleVal "17" - alleleVal q|)).min? =
        some d ∧
      is_mendelian_violation ["17"] ["1", "2"] ["17", "19"] true = some (ok, d)) ∧
    is_mendelian_violation ["17"] ["20", "21"] ["17", "19"] true = some (true, 0) :=
  haploid_chrX_violation_characterization "17" ["20", "21"] ["1", "2"] ["17", "19"]
    (by decide) (by decide)

/-- C6: for a diploid proband, the pairing chosen by
`determine_transmitted_alleles` (read off from which proband allele is attributed
to which parent) has the minimal summed nearest-allele distance over the two
pairings, and that minimal sum equals the distance returned by
`is_mendelian_violation` on the same input. -/
theorem transmission_pairing_matches_violation_distance
    (p0 p1 : String) (F M : List String) (x : Bool)
    (ft mt : Option TransVal) (ff fm : Option String) (ok : Bool) (d : Int)
    (hdet : determine_transmitted_alleles [p0, p1] F M x = some (ft, mt, ff, fm))
    (hmv : is_mendelian_violation [p0, p1] F M x = some (ok, d)) :
    ∃ d0f d0m d1f d1m : Int,
      compute_min_distance_mendelian p0 F = some d0f ∧
      compute_min_distance_mendelian p0 M = some d0m ∧
      compute_min_distance_mendelian p1 F = some d1f ∧
      compute_min_distance_mendelian p1 M = some d1m ∧
      d = min (d0f + d1m) (d1f + d0m) ∧
      ((fm = some p0 ∧ ff = some p1 ∧ d0m + d1f ≤ d0f + d1m ∧ d = d0m + d1f) ∨
       (fm = some p1 ∧ ff = some p0 ∧ d0f + d1m ≤ d0m + d1f ∧ d = d0f + d1m)) := by
  simp only [determine_transmitted_alleles, Option.bind_eq_bind] at hdet
  rw [Option.bind_eq_some] at hdet
  obtain ⟨nf1, hnf1, hdet⟩ := hdet
  rw [Option.bind_eq_some] at hdet
  obtain ⟨nm1, hnm1, hdet⟩ := hdet
  rw [Option.bind_eq_some] at hdet
  obtain ⟨nf2, hnf2, hdet⟩ := hdet
  rw [Option.bind_eq_some] at hdet
  obtain ⟨nm2, hnm2, hdet⟩ := hdet
  have c0f := get_nearest_parental_allele_snd hnf1
  have c0m := get_nearest_parental_allele_snd hnm1
  have c1f := get_nearest_parental_allele_snd hnf2
  have c1m := get_nearest_parental_allele_snd hnm2
  simp only [is_mendelian_violation, c0f, c1m, c1f, c0m, Option.bind_eq_bind,
    Option.some_bind, Option.pure_def, Option.some.injEq, Prod.mk.injEq] at hmv
  obtain ⟨-, hd⟩ := hmv
  refine ⟨nf1.2, nm1.2, nf2.2, nm2.2, c0f, c0m, c1f, c1m, hd.symm, ?_⟩
  by_cases hc : nm1.2 + nf2.2 < nf1.2 + nm2.2
  · rw [if_pos hc] at hdet
    simp only [Option.pure_def, Option.some.injEq, Prod.mk.injEq] at hdet
    obtain ⟨-, -, hff, hfm⟩ := hdet
    refine Or.inl ⟨hfm.symm, hff.symm, by omega, ?_⟩
    rw [← hd, min_eq_right (by omega : nf2.2 + nm1.2 ≤ nf1.2 + nm2.2)]
    omega
  · rw [if_neg hc] at hdet
    simp only [Option.pure_def, Option.some.injEq, Prod.mk.injEq] at hdet
    obtain ⟨-, -, hff, hfm⟩ := hdet
    refine Or.inr ⟨hfm.symm, hff.symm, by omega, ?_⟩
    rw [← hd, min_eq_left (by omega : nf1.2 + nm2.2 ≤ nf2.2 + nm1.2)]

theorem intervals_overlap_eq_true_iff {a b : Interval} :
    intervals_overlap a b = true ↔ ¬(a.hi < b.lo) ∧ ¬(b.hi < a.lo) := by
  simp [intervals_overlap]

/-- C8: the per-pair interval distance used by the CI classifier is the least
element of the set of point-to-point absolute distances between the two closed
intervals (so it is the minimum separation, and `0` exactly on overlap), it is
`0` whenever the intervals overlap, and it is symmetric. -/
theorem ci_pair_distance_is_least_separation
    (a b : Interval) (ha : a.lo ≤ a.hi) (hb : b.lo ≤ b.hi) :
    IsLeast {d : Int | ∃ x y, a.lo ≤ x ∧ x ≤ a.hi ∧ b.lo ≤ y ∧ y ≤ b.hi ∧ d = |x - y|}
      (ciPairDistance a b) ∧
    (intervals_overlap a b = true → ciPairDistance a b = 0) ∧
    ciPairDistance a b = ciPairDistance b a := by
  by_cases h1 : a.hi < b.lo
  · have hnov : ¬(intervals_overlap a b = true) :=
      fun hov => (intervals_overlap_eq_true_iff.mp hov).1 h1
    have hnov2 : ¬(intervals_overlap b a = true) :=
      fun hov => (intervals_overlap_eq_true_iff.mp hov).2 h1
    have hd : ciPairDistance a b = b.lo - a.hi := by
      unfold ciPairDistance Interval.distance_to
      rw [if_neg hnov, if_pos h1, abs_of_pos (by omega)]
    have hd2 : ciPairDistance b a = b.lo - a.hi := by
      unfold ciPairDistance Interval.distance_to
      rw [if_neg hnov2, if_neg (by omega : ¬(b.hi < a.lo)), abs_of_pos (by omega)]
    refine ⟨⟨⟨a.hi, b.lo, ha, le_refl _, le_refl _, hb, ?_⟩, ?_⟩, fun hov => absurd hov hnov,
      hd.trans hd2.symm⟩
    · rw [hd, abs_sub_comm, abs_of_pos (by omega)]
    · rintro d ⟨x, y, hx1, hx2, hy1, hy2, rfl⟩
      rw [hd, abs_sub_comm, abs_of_pos (by omega)]
      omega
  · by_cases h2 : b.hi < a.lo
    · have hnov : ¬(intervals_overlap a b = true) :=
        fun hov => (intervals_overlap_eq_true_iff.mp hov).2 h2
      have hnov2 : ¬(intervals_overlap b a = true) :=
        fun hov => (intervals_overlap_eq_true_iff.mp hov).1 h2
      have hd : ciPairDistance a b = a.lo - b.hi := by
        unfold ciPairDistance Interval.distance_to
        rw [if_neg hnov, if_neg h1, abs_of_pos (by omega)]
      have hd2 : ciPairDistance b a = a.lo - b.hi := by
        unfold ciPairDistance Interval.distance_to
        rw [if_neg hnov2, if_pos h2, abs_of_pos (by omega)]
      refine ⟨⟨⟨a.lo, b.hi, le_refl _, ha, hb, le_refl _, ?_⟩, ?_⟩, fun hov => absurd hov hnov,
        hd.trans hd2.symm⟩
      · rw [hd, abs_of_pos (by omega)]
      · rintro d ⟨x, y, hx1, hx2, hy1, hy2, rfl⟩
        rw [hd, abs_of_pos (by omega)]
        omega
    · have hov : intervals_overlap a b = true := intervals_overlap_eq_true_iff.mpr ⟨h1, h2⟩
      have hov2 : intervals_overlap b a = true := intervals_overlap_eq_true_iff.mpr ⟨h2, h1⟩
      have hd : ciPairDistance a b = 0 := by
        unfold ciPairDistance Interval.distance_to
        rw [if_pos hov]
        simp
      have hd2 : ciPairDistance b a = 0 := by
        unfold ciPairDistance Interval.distance_to
        rw [if_pos hov2]
        simp
      refine ⟨⟨⟨max a.lo b.lo, max a.lo b.lo, le_max_left _ _,
        max_le ha (by omega), le_max_right _ _, max_le (by omega) hb, ?_⟩, ?_⟩,
        fun _ => hd, hd.trans hd2.symm⟩
      · rw [hd]
        simp
      · rintro d ⟨x, y, hx1, hx2, hy1, hy2, rfl⟩
        rw [hd]
        exact abs_nonneg _

/-- Witness for C8 at two concrete disjoint intervals. -/
theorem ci_pair_distance_is_least_separation_witness :
    IsLeast {d : Int | ∃ x y, (Interval.mk 1 3).lo ≤ x ∧ x ≤ (Interval.mk 1 3).hi ∧
        (Interval.mk 5 7).lo ≤ y ∧ y ≤ (Interval.mk 5 7).hi ∧ d = |x - y|}
      (ciPairDistance (Interval.mk 1 3) (Interval.mk 5 7)) ∧
    (intervals_overlap (Interval.mk 1 3) (Interval.mk 5 7) = true →
      ciPairDistance (Interval.mk 1 3) (Interval.mk 5 7) = 0) ∧
    ciPairDistance (Interval.mk 1 3) (Interval.mk 5 7) =
      ciPairDistance (Interval.mk 5 7) (Interval.mk 1 3) :=
  ci_pair_distance_is_least_separation (Interval.mk 1 3) (Interval.mk 5 7)
    (by decide) (by decide)

/-- C9: two closed intervals overlap (touching endpoints included) iff the
per-pair CI distance is `0`. -/
theorem overlap_iff_ci_pair_distance_zero
    (a b : Interval) (ha : a.lo ≤ a.hi) (hb : b.lo ≤ b.hi) :
    intervals_overlap a b = true ↔ ciPairDistance a b = 0 := by
  constructor
  · intro hov
    unfold ciPairDistance Interval.distance_to
    rw [if_pos hov]
    simp
  · intro h0
    by_cases h1 : a.hi < b.lo
    · exfalso
      have hnov : ¬(intervals_overlap a b = true) :=
        fun hov => (intervals_overlap_eq_true_iff.mp hov).1 h1
      unfold ciPairDistance Interval.distance_to at h0
      rw [if_neg hnov, if_pos h1, abs_of_pos (by omega)] at h0
      omega
    · by_cases h2 : b.hi < a.lo
      · exfalso
        have hnov : ¬(intervals_overlap a b = true) :=
          fun hov => (intervals_overlap_eq_true_iff.mp hov).2 h2
        unfold ciPairDistance Interval.distance_to at h0
        rw [if_neg hnov, if_neg h1, abs_of_pos (by omega)] at h0
        omega
      · exact intervals_overlap_eq_true_iff.mpr ⟨h1, h2⟩

/-- Witness for C9 at two concrete touching intervals. -/
theorem overlap_iff_ci_pair_distance_zero_witness :
    (intervals_overlap (Interval.mk 1 3) (Interval.mk 3 5) = true ↔
      ciPairDistance (Interval.mk 1 3) (Interval.mk 3 5) = 0) ∧
    intervals_overlap (Interval.mk 1 3) (Interval.mk 3 5) = true :=
  ⟨overlap_iff_ci_pair_distance_zero (Interval.mk 1 3) (Interval.mk 3 5)
    (by decide) (by decide), by decide⟩

/-- Witness for C6 at the spec's diploid consistent scenario with swapped
pairing. -/
theorem transmission_pairing_matches_violation_distance_witness :
    ∃ d0f d0m d1f d1m : Int,
      compute_min_distance_mendelian "17" ["19", "30"] = some d0f ∧
      compute_min_distance_mendelian "17" ["17", "40"] = some d0m ∧
      compute_min_distance_mendelian "19" ["19", "30"] = some d1f ∧
      compute_min_distance_mendelian "19" ["17", "40"] = some d1m ∧
      (0 : Int) = min (d0f + d1m) (d1f + d0m) ∧
      ((some "17" = some "17" ∧ some "19" = some "19" ∧ d0m + d1f ≤ d0f + d1m ∧
          (0 : Int) = d0m + d1f) ∨
       (some "17" = some "19" ∧ some "19" = some "17" ∧ d0f + d1m ≤ d0m + d1f ∧
          (0 : Int) = d0f + d1m)) :=
  transmission_pairing_matches_violation_distance "17" "19" ["19", "30"] ["17", "40"] false
    (some (TransVal.str "19")) (some (TransVal.str "17")) (some "19") (some "17") true 0
    (by decide) (by decide)

theorem groupRowsStep_cases (rows : List CallRow)
    (acc : List (CallRow × CallRow × CallRow) × List CallRow) (row : CallRow) :
    (∃ f m, all_rows_get rows (row.father_id.getD "", row.locusId, row.variantId) = some f ∧
      all_rows_get rows (row.mother_id.getD "", row.locusId, row.variantId) = some m ∧
      groupRowsStep rows acc row = (acc.1 ++ [(row, f, m)], acc.2)) ∨
    ((all_rows_get rows (row.father_id.getD "", row.locusId, row.variantId) = none ∨
      all_rows_get rows (row.mother_id.getD "", row.locusId, row.variantId) = none) ∧
      groupRowsStep rows acc row = (acc.1, acc.2 ++ [row])) := by
  cases hf : all_rows_get rows (row.father_id.getD "", row.locusId, row.variantId) with
  | none => exact Or.inr ⟨Or.inl rfl, by simp [groupRowsStep, hf]⟩
  | some f =>
    cases hm : all_rows_get rows (row.mother_id.getD "", row.locusId, row.variantId) with
    | none => exact Or.inr ⟨Or.inr rfl, by simp [groupRowsStep, hf, hm]⟩
    | some m => exact Or.inl ⟨f, m, rfl, rfl, by simp [groupRowsStep, hf, hm]⟩

theorem foldl_groupRows_fst_mono (rows : List CallRow) :
    ∀ (l : List CallRow) (acc : List (CallRow × CallRow × CallRow) × List CallRow)
      (t : CallRow × CallRow × CallRow), t ∈ acc.1 →
      t ∈ (l.foldl (groupRowsStep rows) acc).1 := by
  intro l
  induction l with
  | nil => intro acc t ht; exact ht
  | cons a l ih =>
    intro acc t ht
    rw [List.foldl_cons]
    apply ih
    rcases groupRowsStep_cases rows acc a with ⟨f, m, _, _, heq⟩ | ⟨_, heq⟩
    · rw [heq]; exact List.mem_append_left _ ht
    · rw [heq]; exact ht

theorem foldl_groupRows_snd_mono (rows : List CallRow) :
    ∀ (l : List CallRow) (acc : List (CallRow × CallRow × CallRow) × List CallRow)
      (r : CallRow), r ∈ acc.2 → r ∈ (l.foldl (groupRowsStep rows) acc).2 := by
  intro l
  induction l with
  | nil => intro acc r hr; exact hr
  | cons a l ih =>
    intro acc r hr
    rw [List.foldl_cons]
    apply ih
    rcases groupRowsStep_cases rows acc a with ⟨f, m, _, _, heq⟩ | ⟨_, heq⟩
    · rw [heq]; exact hr
    · rw [heq]; exact List.mem_append_left _ hr

theorem foldl_groupRows_covers (rows : List CallRow) :
    ∀ (l : List CallRow) (acc : List (CallRow × CallRow × CallRow) × List CallRow)
      (r : CallRow), r ∈ l →
      ((∃ t ∈ (l.foldl (groupRowsStep rows) acc).1, r = t.1) ∨
        r ∈ (l.foldl (groupRowsStep rows) acc).2) ∧
      ((all_rows_get rows (r.father_id.getD "", r.locusId, r.variantId) = none ∨
        all_rows_get rows (r.mother_id.getD "", r.locusId, r.variantId) = none) →
        r ∈ (l.foldl (groupRowsStep rows) acc).2) := by
  intro l
  induction l with
  | nil => intro acc r hr; cases hr
  | cons a l ih =>
    intro acc r hr
    rw [List.foldl_cons]
    rcases List.mem_cons.mp hr with rfl | hr
    · rcases groupRowsStep_cases rows acc r with ⟨f, m, hf, hm, heq⟩ | ⟨hfail, heq⟩
      · constructor
        · left
          refine ⟨(r, f, m), foldl_groupRows_fst_mono rows l _ _ ?_, rfl⟩
          rw [heq]
          exact List.mem_append_right _ (by simp)
        · intro hbad
          rcases hbad with hbad | hbad
          · rw [hf] at hbad; cases hbad
          · rw [hm] at hbad; cases hbad
      · have hmem2 : r ∈ (groupRowsStep rows acc r).2 := by
          rw [heq]
          exact List.mem_append_right _ (by simp)
        exact ⟨Or.inr (foldl_groupRows_snd_mono rows l _ _ hmem2),
          fun _ => foldl_groupRows_snd_mono rows l _ _ hmem2⟩
    · exact ih _ r hr

/-- C3 (amended): every input row whose `father_id` and `mother_id` are both
present is either the proband of a triple in the trio partition or appears in the
"other" partition, and in particular lands in "other" whenever its father or
mother key fails to resolve in the genotype cache; rows with a missing parent
identifier, however, are filtered out before the loop and can appear in neither
partition. -/
theorem rows_with_parent_ids_partitioned
    (rows : List CallRow) (r : CallRow) (hr : r ∈ rows)
    (hf : r.father_id.isSome) (hm : r.mother_id.isSome) :
    ((∃ t ∈ (group_rows_by_trio rows).1, r = t.1) ∨ r ∈ (group_rows_by_trio rows).2) ∧
    ((all_rows_get rows (r.father_id.getD "", r.locusId, r.variantId) = none ∨
      all_rows_get rows (r.mother_id.getD "", r.locusId, r.variantId) = none) →
      r ∈ (group_rows_by_trio rows).2) := by
  have hrf : r ∈ rows.filter (fun q => q.father_id.isSome && q.mother_id.isSome) :=
    List.mem_filter.mpr ⟨hr, by simp [hf, hm]⟩
  exact foldl_groupRows_covers rows _ ([], []) r hrf

/-- Witness for C3's amended statement on a concrete full trio. -/
theorem rows_with_parent_ids_partitioned_witness :
    ((∃ t ∈ (group_rows_by_trio
        [⟨"c", "L", "V", some "10/12", some "f", some "m"⟩,
         ⟨"f", "L", "V", some "10/10", none, none⟩,
         ⟨"m", "L", "V", some "12/12", none, none⟩]).1,
      (⟨"c", "L", "V", some "10/12", some "f", some "m"⟩ : CallRow) = t.1) ∨
      (⟨"c", "L", "V", some "10/12", some "f", some "m"⟩ : CallRow) ∈
        (group_rows_by_trio
          [⟨"c", "L", "V", some "10/12", some "f", some "m"⟩,
           ⟨"f", "L", "V", some "10/10", none, none⟩,
           ⟨"m", "L", "V", some "12/12", none, none⟩]).2) ∧
    ((all_rows_get
        [⟨"c", "L", "V", some "10/12", some "f", some "m"⟩,
         ⟨"f", "L", "V", some "10/10", none, none⟩,
         ⟨"m", "L", "V", some "12/12", none, none⟩]
        ((⟨"c", "L", "V", some "10/12", some "f", some "m"⟩ : CallRow).father_id.getD "",
          (⟨"c", "L", "V", some "10/12", some "f", some "m"⟩ : CallRow).locusId,
          (⟨"c", "L", "V", some "10/12", some "f", some "m"⟩ : CallRow).variantId) = none ∨
      all_rows_get
        [⟨"c", "L", "V", some "10/12", some "f", some "m"⟩,
         ⟨"f", "L", "V", some "10/10", none, none⟩,
         ⟨"m", "L", "V", some "12/12", none, none⟩]
        ((⟨"c", "L", "V", some "10/12", some "f", some "m"⟩ : CallRow).mother_id.getD "",
          (⟨"c", "L", "V", some "10/12", some "f", some "m"⟩ : CallRow).locusId,
          (⟨"c", "L", "V", some "10/12", some "f", some "m"⟩ : CallRow).variantId) = none) →
      (⟨"c", "L", "V", some "10/12", some "f", some "m"⟩ : CallRow) ∈
        (group_rows_by_trio
          [⟨"c", "L", "V", some "10/12", some "f", some "m"⟩,
           ⟨"f", "L", "V", some "10/10", none, none⟩,
           ⟨"m", "L", "V", some "12/12", none, none⟩]).2) :=
  rows_with_parent_ids_partitioned
    [⟨"c", "L", "V", some "10/12", some "f", some "m"⟩,
     ⟨"f", "L", "V", some "10/10", none, none⟩,
     ⟨"m", "L", "V", some "12/12", none, none⟩]
    ⟨"c", "L", "V", some "10/12", some "f", some "m"⟩
    (by decide) (by decide) (by decide)

/-- C3 counterexample: a row whose father and mother identifiers are missing is
filtered out before the pairing loop, so it appears in neither the trio partition
(in any position) nor the "other" partition — it is silently dropped. -/
theorem row_with_missing_parent_ids_dropped :
    ¬ ((∃ t ∈ (group_rows_by_trio [⟨"s1", "L", "V", some "10/12", none, none⟩]).1,
        (⟨"s1", "L", "V", some "10/12", none, none⟩ : CallRow) = t.1 ∨
        (⟨"s1", "L", "V", some "10/12", none, none⟩ : CallRow) = t.2.1 ∨
        (⟨"s1", "L", "V", some "10/12", none, none⟩ : CallRow) = t.2.2) ∨
      (⟨"s1", "L", "V", some "10/12", none, none⟩ : CallRow) ∈
        (group_rows_by_trio [⟨"s1", "L", "V", some "10/12", none, none⟩]).2) := by decide

end CheckTrios
